import Mathlib

/-!
Shallow embedding of the swarm mesh core (peer table, work distributor,
mesh manager task handling) of the Jarvis repository, together with
theorems settling the frozen claims about it.

Modelling conventions:
* The JavaScript `Map` keyed by node id is modelled as an association
  list `List (String × α)` iterated in insertion order; `set` on an
  existing key updates the entry in place, `set` on a fresh key appends.
* Wall-clock instants (`Date.now()`, ISO timestamps) are modelled as
  integer milliseconds passed explicitly to each operation.
* Mutating methods are modelled as functions returning the new state
  together with the method's return value.
-/

namespace Swarm

/-- `SwarmNodeIdentity` from `types.ts`. -/
structure SwarmNodeIdentity where
  node_id : String
  display_name : String
  api_url : String
  capabilities : List String
  version : String
  deriving DecidableEq, Repr

/-- `PeerStatus` from `types.ts`. -/
inductive PeerStatus where
  | active
  | suspected
  | unreachable
  | left
  deriving DecidableEq, Repr

/-- `PeerEntry` from `types.ts`; timestamps are integer milliseconds. -/
structure PeerEntry where
  identity : SwarmNodeIdentity
  status : PeerStatus
  last_heartbeat_at : Int
  last_latency_ms : Int
  consecutive_failures : Nat
  joined_at : Int
  deriving DecidableEq, Repr

/-- The peer table's backing `Map<string, PeerEntry>` in insertion order. -/
abbrev PeerTable := List (String × PeerEntry)

/-- `SweepThresholds` from `peer-table.ts`. -/
structure SweepThresholds where
  suspected_after_ms : Int
  unreachable_after_ms : Int
  evict_after_ms : Int
  deriving DecidableEq, Repr

/-- `Map.get`: first (hence, with unique keys, only) entry for a key. -/
def lookup : PeerTable → String → Option PeerEntry
  | [], _ => none
  | (k, e) :: rest, nodeId => if k = nodeId then some e else lookup rest nodeId

/-- `Map.set` on a key already present: replace that entry in place. -/
def replaceEntry : PeerTable → String → PeerEntry → PeerTable
  | [], _, _ => []
  | (k, e) :: rest, nodeId, e' =>
    if k = nodeId then (k, e') :: rest else (k, e) :: replaceEntry rest nodeId e'

/-- The refresh of an existing entry performed by `PeerTable.add`
(`peer-table.ts` lines 19–25): identity, status, heartbeat stamp and
failure count are overwritten, latency and join time are kept. -/
def refreshEntry (e : PeerEntry) (identity : SwarmNodeIdentity) (now : Int) : PeerEntry :=
  { e with
    identity := identity
    status := .active
    last_heartbeat_at := now
    consecutive_failures := 0 }

/-- `PeerTable.add` (`peer-table.ts` lines 17–42). Returns the entry (or
the capacity error, in which case the table is unchanged) and the new
table. -/
def add (t : PeerTable) (maxPeers : Nat) (identity : SwarmNodeIdentity) (now : Int) :
    Except String PeerEntry × PeerTable :=
  match lookup t identity.node_id with
  | some existing =>
      let e := refreshEntry existing identity now
      (.ok e, replaceEntry t identity.node_id e)
  | none =>
      if maxPeers ≤ t.length then
        (.error ("Peer table full (max " ++ toString maxPeers ++ ")"), t)
      else
        let entry : PeerEntry :=
          { identity := identity
            status := .active
            last_heartbeat_at := now
            last_latency_ms := 0
            consecutive_failures := 0
            joined_at := now }
        (.ok entry, t ++ [(identity.node_id, entry)])

/-- `PeerTable.getActive` (`peer-table.ts` lines 56–58). -/
def getActive (t : PeerTable) : List PeerEntry :=
  (t.map Prod.snd).filter (fun p => p.status = .active)

/-- `PeerTable.recordFailure` (`peer-table.ts` lines 78–83): increment the
failure counter of the named peer and return the new count, or `-1` when
the peer is absent. -/
def recordFailure : PeerTable → String → PeerTable × Int
  | [], _ => ([], -1)
  | (k, e) :: rest, nodeId =>
    if k = nodeId then
      ((k, { e with consecutive_failures := e.consecutive_failures + 1 }) :: rest,
        (e.consecutive_failures : Int) + 1)
    else
      let r := recordFailure rest nodeId
      ((k, e) :: r.1, r.2)

/-- The result record of `PeerTable.sweep`. -/
structure SweepResult where
  table : PeerTable
  suspected : List String
  unreachable : List String
  evicted : List String
  deriving DecidableEq, Repr

/-- `PeerTable.sweep` (`peer-table.ts` lines 92–121): walk the table in
iteration order; entries with status `left` are skipped; otherwise the
heartbeat age decides the first matching transition, highest threshold
first. -/
def sweep : PeerTable → Int → SweepThresholds → SweepResult
  | [], _, _ => ⟨[], [], [], []⟩
  | (nodeId, peer) :: rest, now, th =>
    let r := sweep rest now th
    if peer.status = .left then
      ⟨(nodeId, peer) :: r.table, r.suspected, r.unreachable, r.evicted⟩
    else
      let age := now - peer.last_heartbeat_at
      if th.evict_after_ms ≤ age then
        ⟨r.table, r.suspected, r.unreachable, nodeId :: r.evicted⟩
      else if th.unreachable_after_ms ≤ age ∧ peer.status ≠ .unreachable then
        ⟨(nodeId, { peer with status := .unreachable }) :: r.table,
          r.suspected, nodeId :: r.unreachable, r.evicted⟩
      else if th.suspected_after_ms ≤ age ∧ peer.status = .active then
        ⟨(nodeId, { peer with status := .suspected }) :: r.table,
          nodeId :: r.suspected, r.unreachable, r.evicted⟩
      else
        ⟨(nodeId, peer) :: r.table, r.suspected, r.unreachable, r.evicted⟩

/-- `CheckpointFinding` elements of a task result are opaque here. -/
structure CheckpointFinding where
  step_title : String
  tool_name : String
  summary : String
  deriving DecidableEq, Repr

/-- `SwarmTaskResult` from `types.ts`. -/
structure SwarmTaskResult where
  task_id : String
  peer_node_id : String
  peer_session_id : String
  status : String
  findings : List CheckpointFinding
  tokens_used : Nat
  cost_usd : Int
  duration_ms : Int
  deriving DecidableEq, Repr

/-- `SwarmTaskConstraints` from `types.ts`. -/
structure SwarmTaskConstraints where
  tool_allowlist : Option (List String)
  max_tokens : Option Nat
  max_cost_usd : Option Int
  max_duration_ms : Option Int
  deriving DecidableEq, Repr

/-- `DistributionStrategy` from `types.ts`. -/
inductive DistributionStrategy where
  | round_robin
  | capability_match
  deriving DecidableEq, Repr

/-- The `WorkDistributor` fields touched by peer selection: the configured
strategy and the mutable `roundRobinIndex`. -/
structure DistState where
  strategy : DistributionStrategy
  roundRobinIndex : Nat
  deriving DecidableEq, Repr

/-- Placeholder entry standing for the non-null assertion
`candidates[idx]!` in `work-distributor.ts`; the rotated index is always
in range, so it is never produced. -/
def defaultPeerEntry : PeerEntry :=
  { identity := ⟨"", "", "", [], ""⟩
    status := .active
    last_heartbeat_at := 0
    last_latency_ms := 0
    consecutive_failures := 0
    joined_at := 0 }

/-- `WorkDistributor.selectPeers` (`work-distributor.ts` lines 101–126).
`activePeers` is what `meshManager.getActivePeers()` returns. Yields the
candidate list and the updated distributor state. -/
def selectPeers (st : DistState) (activePeers : List PeerEntry)
    (constraints : Option SwarmTaskConstraints) : List PeerEntry × DistState :=
  let candidates :=
    match st.strategy, constraints with
    | .capability_match, some c =>
      match c.tool_allowlist with
      | some required =>
        if required.isEmpty then activePeers
        else activePeers.filter (fun peer =>
          required.any (fun tool => peer.identity.capabilities.contains tool))
      | none => activePeers
    | _, _ => activePeers
  if st.strategy = .round_robin ∧ 0 < candidates.length then
    let rotated := (List.range candidates.length).map (fun i =>
      candidates.getD ((st.roundRobinIndex + i) % candidates.length) defaultPeerEntry)
    (rotated, { st with roundRobinIndex := (st.roundRobinIndex + 1) % candidates.length })
  else
    (candidates, st)

/-- The retry loop of `WorkDistributor.distribute` (`work-distributor.ts`
lines 47–62). `attempt` models the outcome of `delegateToPeer` for one
candidate: `.ok` when the delegation promise resolves with a result,
`.error` when the peer rejects or the promise rejects (timeout/cancel). -/
def distributeLoop (attempt : PeerEntry → Except String SwarmTaskResult)
    (maxRetries : Nat) : List PeerEntry → Nat → Option String →
    Except String SwarmTaskResult
  | [], _, lastError => .error (lastError.getD "Failed to distribute task to any peer")
  | peer :: rest, attempts, lastError =>
    if maxRetries + 1 ≤ attempts then
      .error (lastError.getD "Failed to distribute task to any peer")
    else
      match attempt peer with
      | .ok result => .ok result
      | .error e => distributeLoop attempt maxRetries rest (attempts + 1) (some e)

/-- `WorkDistributor.distribute` (`work-distributor.ts` lines 37–63),
with the asynchronous `delegateToPeer` abstracted by `attempt`. Returns
the task result or the surfaced error, and the updated distributor
state. -/
def distribute (st : DistState) (activePeers : List PeerEntry)
    (constraints : Option SwarmTaskConstraints)
    (attempt : PeerEntry → Except String SwarmTaskResult) (maxRetries : Nat) :
    Except String SwarmTaskResult × DistState :=
  let sel := selectPeers st activePeers constraints
  if sel.1.isEmpty then
    (.error "No suitable peers available for task distribution", sel.2)
  else
    (distributeLoop attempt maxRetries sel.1 0 none, sel.2)

/-- `ActiveDelegation` from `types.ts`, with the `resolve`/`reject`
closures and the timer handle replaced by the observable effects they
produce (see `DistEvent`). -/
structure ActiveDelegation where
  task_id : String
  peer_node_id : String
  correlation_id : String
  sent_at : Int
  timeout_ms : Int
  deriving DecidableEq, Repr

/-- Observable side effects of the distributor on timers and pending
promises: `clearTimeout`, `resolve(result)` and `reject(error)` on the
delegation with the given task id. -/
inductive DistEvent where
  | timerCleared (task_id : String)
  | promiseResolved (task_id : String) (result : SwarmTaskResult)
  | promiseRejected (task_id : String) (error : String)
  deriving DecidableEq, Repr

/-- The distributor's `activeDelegations` map together with the trace of
timer/promise effects it has emitted. -/
structure DelegationWorld where
  activeDelegations : List (String × ActiveDelegation)
  events : List DistEvent
  deriving DecidableEq, Repr

/-- `Map.get` on the delegations map (`findDelegationByTaskId`,
`work-distributor.ts` lines 169–171). -/
def findDelegationByTaskId (m : List (String × ActiveDelegation)) (taskId : String) :
    Option ActiveDelegation :=
  match m with
  | [] => none
  | (k, d) :: rest => if k = taskId then some d else findDelegationByTaskId rest taskId

/-- `Map.delete` on the delegations map. -/
def deleteDelegation : List (String × ActiveDelegation) → String →
    List (String × ActiveDelegation)
  | [], _ => []
  | (k, d) :: rest, taskId =>
    if k = taskId then rest else (k, d) :: deleteDelegation rest taskId

/-- `WorkDistributor.resolveTask` (`work-distributor.ts` lines 66–74):
look the task id up; when present, clear the timer, delete the entry and
resolve the promise with the result, returning `true`; otherwise return
`false`. -/
def resolveTask (w : DelegationWorld) (result : SwarmTaskResult) :
    DelegationWorld × Bool :=
  match findDelegationByTaskId w.activeDelegations result.task_id with
  | none => (w, false)
  | some delegation =>
      ({ activeDelegations := deleteDelegation w.activeDelegations delegation.task_id
         events := w.events ++
           [.timerCleared delegation.task_id,
            .promiseResolved delegation.task_id result] }, true)

/-- `WorkDistributor.activeCount` (`work-distributor.ts` lines 77–79). -/
def activeCount (w : DelegationWorld) : Nat :=
  w.activeDelegations.length

/-- `WorkDistributor.cancelAll` (`work-distributor.ts` lines 91–97): for
every delegation clear its timer and reject its promise with the
cancellation error, then clear the map. -/
def cancelAll (w : DelegationWorld) : DelegationWorld :=
  { activeDelegations := []
    events := w.events ++
      (w.activeDelegations.map (fun kv =>
        [DistEvent.timerCleared kv.2.task_id,
         DistEvent.promiseRejected kv.2.task_id "Delegation cancelled"])).flatten }

/-- `SwarmTaskRequest` from `types.ts`. -/
structure SwarmTaskRequest where
  task_id : String
  originator_node_id : String
  originator_session_id : String
  task_text : String
  constraints : Option SwarmTaskConstraints
  correlation_id : String
  nonce : String
  deriving DecidableEq, Repr

/-- The `{accepted, reason?, session_id?}` record returned by
`MeshManager.handleTaskRequest` and by the injected `onTaskRequest`
session factory. -/
structure TaskResponse where
  accepted : Bool
  reason : Option String
  session_id : Option String
  deriving DecidableEq, Repr

/-- Modelled from the spec: the manager-private `NonceLedger`, a mapping
nonce → first-seen-at (ms); `mesh-manager.ts` itself is not among the
provided sources. -/
abbrev NonceLedger := List (String × Int)

/-- Modelled from the spec: lazy expiry of ledger entries older than
`nonce_window_ms` on lookup; an entry seen less than the window ago is
kept. -/
def expireLedger (ledger : NonceLedger) (windowMs now : Int) : NonceLedger :=
  ledger.filter (fun kv => now - kv.2 < windowMs)

/-- Modelled from the spec: `MeshManager.handleTaskRequest` (the
implementation file is not among the provided sources; steps follow the
spec's numbered list): expire the ledger, reject a nonce already present
as "Replayed nonce", reject when no `onTaskRequest` factory is
configured without recording the nonce, otherwise record the nonce and
invoke the factory, propagating its response verbatim. Returns the new
ledger, the response, and whether the factory was invoked (i.e. whether
a session was created). -/
def handleTaskRequest (ledger : NonceLedger)
    (onTaskRequest : Option (SwarmTaskRequest → TaskResponse))
    (windowMs now : Int) (req : SwarmTaskRequest) :
    NonceLedger × TaskResponse × Bool :=
  let fresh := expireLedger ledger windowMs now
  if fresh.any (fun kv => kv.1 = req.nonce) then
    (fresh, ⟨false, some "Replayed nonce", none⟩, false)
  else
    match onTaskRequest with
    | none => (fresh, ⟨false, some "Node does not accept delegated tasks", none⟩, false)
    | some factory => (fresh ++ [(req.nonce, now)], factory req, true)

/-- A sequence of `sweep` calls (each with its own clock reading and
thresholds) with no intervening `recordHeartbeat` or `add`; used to state
the monotonicity claim about repeated sweeps. -/
def sweepSeq : List (Int × SweepThresholds) → PeerTable → PeerTable
  | [], t => t
  | (now, th) :: steps, t => sweepSeq steps (sweep t now th).table

/-- Position of a status along the forward chain
active → suspected → unreachable (→ evicted); `left` is terminal. -/
def statusRank : PeerStatus → Nat
  | .active => 0
  | .suspected => 1
  | .unreachable => 2
  | .left => 3

/-- The first candidate observed by each of `k` successive
`selectPeers` calls (as made by successive `distribute` calls that fail
at their first candidate), threading the distributor state. -/
def firstCandidates (peers : List PeerEntry) : DistState → Nat → List (Option PeerEntry)
  | _, 0 => []
  | st, k + 1 =>
    let sel := selectPeers st peers none
    sel.1.head? :: firstCandidates peers sel.2 k

/-! Concrete sample data used by witnesses and counterexamples. -/

def idA : SwarmNodeIdentity :=
  ⟨"node-a", "Alpha", "http://a:3100", ["read-file"], "0.1.0"⟩

def idB : SwarmNodeIdentity :=
  ⟨"node-b", "Beta", "http://b:3100", ["shell-exec"], "0.1.0"⟩

def idC : SwarmNodeIdentity :=
  ⟨"node-c", "Gamma", "http://c:3100", ["read-file", "write-file"], "0.1.0"⟩

def entryA : PeerEntry :=
  { identity := idA, status := .active, last_heartbeat_at := 1000,
    last_latency_ms := 5, consecutive_failures := 0, joined_at := 1000 }

def entryB : PeerEntry :=
  { identity := idB, status := .suspected, last_heartbeat_at := 2000,
    last_latency_ms := 7, consecutive_failures := 2, joined_at := 1500 }

def entryC : PeerEntry :=
  { identity := idC, status := .active, last_heartbeat_at := 3000,
    last_latency_ms := 9, consecutive_failures := 1, joined_at := 2500 }

def entryLeft : PeerEntry :=
  { identity := idC, status := .left, last_heartbeat_at := 100,
    last_latency_ms := 9, consecutive_failures := 1, joined_at := 50 }

def sampleTable : PeerTable :=
  [("node-a", entryA), ("node-b", entryB)]

def sampleDelegation : ActiveDelegation :=
  { task_id := "task-1", peer_node_id := "node-a", correlation_id := "corr-1",
    sent_at := 5000, timeout_ms := 300000 }

def sampleWorld : DelegationWorld :=
  { activeDelegations := [("task-1", sampleDelegation)], events := [] }

def sampleResult : SwarmTaskResult :=
  { task_id := "task-1", peer_node_id := "node-a", peer_session_id := "sess-1",
    status := "completed", findings := [], tokens_used := 100,
    cost_usd := 1, duration_ms := 5000 }

def sampleRequest : SwarmTaskRequest :=
  { task_id := "task-1", originator_node_id := "node-b",
    originator_session_id := "sess-0", task_text := "Test task",
    constraints := none, correlation_id := "corr-1", nonce := "nonce-1" }

/-- Identity used by witnesses to re-add node-b with refreshed fields. -/
def idB2 : SwarmNodeIdentity :=
  ⟨"node-b", "Beta v2", "http://b2:3100", ["shell-exec", "read-file"], "0.2.0"⟩

/-! ## Helper lemmas -/

theorem map_update_of_not_mem {α : Type} (l : List (String × α)) (k : String) (e' : α)
    (h : k ∉ l.map Prod.fst) :
    l.map (fun kv => if kv.1 = k then (kv.1, e') else kv) = l := by
  induction l with
  | nil => rfl
  | cons kv rest ih =>
    simp only [List.map_cons, List.mem_cons, not_or] at h
    simp only [List.map_cons]
    rw [if_neg (fun hk => h.1 hk.symm), ih h.2]

theorem replaceEntry_eq_map (t : PeerTable) (k : String) (e' : PeerEntry)
    (hnodup : (t.map Prod.fst).Nodup) :
    replaceEntry t k e' = t.map (fun kv => if kv.1 = k then (kv.1, e') else kv) := by
  induction t with
  | nil => rfl
  | cons kv rest ih =>
    obtain ⟨a, e⟩ := kv
    simp only [List.map_cons, List.nodup_cons] at hnodup
    by_cases ha : a = k
    · subst ha
      simp only [replaceEntry, List.map_cons, eq_self_iff_true, if_true]
      rw [map_update_of_not_mem rest a e' hnodup.1]
    · simp only [replaceEntry, List.map_cons, if_neg ha]
      rw [ih hnodup.2]

theorem lookup_eq_some_mem (t : PeerTable) (k : String) (e : PeerEntry)
    (h : lookup t k = some e) : (k, e) ∈ t := by
  induction t with
  | nil => simp [lookup] at h
  | cons kv rest ih =>
    obtain ⟨a, e0⟩ := kv
    by_cases ha : a = k
    · subst ha
      simp only [lookup, eq_self_iff_true, if_true, Option.some.injEq] at h
      subst h
      exact List.mem_cons_self _ _
    · simp only [lookup, if_neg ha] at h
      exact List.mem_cons_of_mem _ (ih h)

theorem recordFailure_present (t : PeerTable) (nodeId : String) (peer : PeerEntry)
    (hnodup : (t.map Prod.fst).Nodup) (hpeer : lookup t nodeId = some peer) :
    recordFailure t nodeId =
      (t.map (fun kv =>
          if kv.1 = nodeId then
            (kv.1, { peer with consecutive_failures := peer.consecutive_failures + 1 })
          else kv),
        (peer.consecutive_failures : Int) + 1) := by
  induction t with
  | nil => simp [lookup] at hpeer
  | cons kv rest ih =>
    obtain ⟨a, e⟩ := kv
    simp only [List.map_cons, List.nodup_cons] at hnodup
    by_cases ha : a = nodeId
    · subst ha
      simp only [lookup, eq_self_iff_true, if_true, Option.some.injEq] at hpeer
      subst hpeer
      simp only [recordFailure, eq_self_iff_true, if_true, List.map_cons]
      rw [map_update_of_not_mem rest a _ hnodup.1]
    · simp only [lookup, if_neg ha] at hpeer
      simp only [recordFailure, if_neg ha, List.map_cons]
      rw [ih hnodup.2 hpeer]

theorem recordFailure_absent (t : PeerTable) (nodeId : String)
    (h : lookup t nodeId = none) :
    recordFailure t nodeId = (t, -1) := by
  induction t with
  | nil => rfl
  | cons kv rest ih =>
    obtain ⟨a, e⟩ := kv
    by_cases ha : a = nodeId
    · subst ha; simp [lookup] at h
    · simp only [lookup, if_neg ha] at h
      simp only [recordFailure, if_neg ha]
      rw [ih h]

/-! ## Claim theorems -/

/-- C10: for a node id present in the table, `recordFailure` increments
exactly that peer's `consecutive_failures` by one (all of its other
fields, and every other entry, are unchanged) and returns the new count;
for an absent node id it returns `-1` and leaves the table unchanged. -/
theorem recordFailure_frame (t : PeerTable) (nodeId : String)
    (hnodup : (t.map Prod.fst).Nodup) :
    (∀ peer, lookup t nodeId = some peer →
        recordFailure t nodeId =
          (t.map (fun kv =>
              if kv.1 = nodeId then
                (kv.1, { peer with consecutive_failures := peer.consecutive_failures + 1 })
              else kv),
            (peer.consecutive_failures : Int) + 1)) ∧
    (lookup t nodeId = none → recordFailure t nodeId = (t, -1)) :=
  ⟨fun peer hpeer => recordFailure_present t nodeId peer hnodup hpeer,
   fun h => recordFailure_absent t nodeId h⟩

/-- Witness for C10 at the concrete table `sampleTable` and node id
`"node-b"` (present, with 2 recorded failures). -/
theorem recordFailure_frame_witness :
    recordFailure sampleTable "node-b" =
      (sampleTable.map (fun kv =>
          if kv.1 = "node-b" then
            (kv.1, { entryB with consecutive_failures := entryB.consecutive_failures + 1 })
          else kv),
        (entryB.consecutive_failures : Int) + 1) :=
  (recordFailure_frame sampleTable "node-b" (by decide)).1 entryB (by decide)

/-- C6: `add` is an upsert. A present node id gets its identity
refreshed, status reset to active, heartbeat stamped `now` and failure
count cleared (latency and join time kept), the refreshed entry is
returned and the table does not grow; a fresh node id with a full table
yields the capacity error and leaves the table unchanged; otherwise a
new active entry with latency 0 and failure count 0 is appended; the
table size never exceeds `maxPeers`. -/
theorem add_upsert_capacity (t : PeerTable) (maxPeers : Nat)
    (identity : SwarmNodeIdentity) (now : Int)
    (hnodup : (t.map Prod.fst).Nodup) :
    (∀ peer, lookup t identity.node_id = some peer →
        add t maxPeers identity now =
          (.ok { identity := identity, status := .active, last_heartbeat_at := now,
                 last_latency_ms := peer.last_latency_ms, consecutive_failures := 0,
                 joined_at := peer.joined_at },
           t.map (fun kv =>
             if kv.1 = identity.node_id then
               (kv.1, { identity := identity, status := .active, last_heartbeat_at := now,
                        last_latency_ms := peer.last_latency_ms, consecutive_failures := 0,
                        joined_at := peer.joined_at })
             else kv)) ∧
        ((add t maxPeers identity now).2).length = t.length) ∧
    (lookup t identity.node_id = none → maxPeers ≤ t.length →
        add t maxPeers identity now =
          (.error ("Peer table full (max " ++ toString maxPeers ++ ")"), t)) ∧
    (lookup t identity.node_id = none → t.length < maxPeers →
        add t maxPeers identity now =
          (.ok { identity := identity, status := .active, last_heartbeat_at := now,
                 last_latency_ms := 0, consecutive_failures := 0, joined_at := now },
           t ++ [(identity.node_id,
             { identity := identity, status := .active, last_heartbeat_at := now,
               last_latency_ms := 0, consecutive_failures := 0, joined_at := now })])) ∧
    (t.length ≤ maxPeers → ((add t maxPeers identity now).2).length ≤ maxPeers) := by
  refine ⟨?_, ?_, ?_, ?_⟩
  · intro peer hpeer
    have hmap := replaceEntry_eq_map t identity.node_id (refreshEntry peer identity now) hnodup
    have hres : add t maxPeers identity now =
        (.ok (refreshEntry peer identity now),
          replaceEntry t identity.node_id (refreshEntry peer identity now)) := by
      simp [add, hpeer]
    refine ⟨?_, ?_⟩
    · rw [hres, hmap]
      rfl
    · rw [hres, hmap]
      simp
  · intro hnone hfull
    simp [add, hnone, hfull]
  · intro hnone hlt
    simp [add, hnone, Nat.not_le.mpr hlt]
  · intro hle
    rcases h : lookup t identity.node_id with _ | peer
    · by_cases hc : maxPeers ≤ t.length
      · simp [add, h, hc]
        exact hle
      · simp [add, h, hc]
        omega
    · have hmap := replaceEntry_eq_map t identity.node_id (refreshEntry peer identity now) hnodup
      simp [add, h, hmap]
      exact hle

/-- Witness for C6 at the concrete table `sampleTable`: re-adding the
already-present node id `"node-b"` with the refreshed identity `idB2`. -/
theorem add_upsert_capacity_witness :
    add sampleTable 50 idB2 9000 =
      (.ok { identity := idB2, status := .active, last_heartbeat_at := 9000,
             last_latency_ms := entryB.last_latency_ms, consecutive_failures := 0,
             joined_at := entryB.joined_at },
       sampleTable.map (fun kv =>
         if kv.1 = idB2.node_id then
           (kv.1, { identity := idB2, status := .active, last_heartbeat_at := 9000,
                    last_latency_ms := entryB.last_latency_ms, consecutive_failures := 0,
                    joined_at := entryB.joined_at })
         else kv)) :=
  ((add_upsert_capacity sampleTable 50 idB2 9000 (by decide)).1 entryB (by decide)).1

theorem findDelegation_some_mem (m : List (String × ActiveDelegation)) (k : String)
    (d : ActiveDelegation) (h : findDelegationByTaskId m k = some d) : (k, d) ∈ m := by
  induction m with
  | nil => simp [findDelegationByTaskId] at h
  | cons kv rest ih =>
    obtain ⟨a, d0⟩ := kv
    by_cases ha : a = k
    · subst ha
      simp only [findDelegationByTaskId, eq_self_iff_true, if_true,
        Option.some.injEq] at h
      subst h
      exact List.mem_cons_self _ _
    · simp only [findDelegationByTaskId, if_neg ha] at h
      exact List.mem_cons_of_mem _ (ih h)

theorem findDelegation_eq_none (m : List (String × ActiveDelegation)) (k : String)
    (h : k ∉ m.map Prod.fst) : findDelegationByTaskId m k = none := by
  induction m with
  | nil => rfl
  | cons kv rest ih =>
    obtain ⟨a, d⟩ := kv
    simp only [List.map_cons, List.mem_cons, not_or] at h
    have hne : ¬ (a = k) := fun hk => h.1 hk.symm
    simp only [findDelegationByTaskId, if_neg hne]
    exact ih h.2

theorem findDelegation_delete_self (m : List (String × ActiveDelegation)) (k : String)
    (hnodup : (m.map Prod.fst).Nodup) :
    findDelegationByTaskId (deleteDelegation m k) k = none := by
  induction m with
  | nil => rfl
  | cons kv rest ih =>
    obtain ⟨a, d⟩ := kv
    simp only [List.map_cons, List.nodup_cons] at hnodup
    by_cases ha : a = k
    · subst ha
      simp only [deleteDelegation, eq_self_iff_true, if_true]
      exact findDelegation_eq_none rest a hnodup.1
    · simp only [deleteDelegation, if_neg ha, findDelegationByTaskId, if_neg ha]
      exact ih hnodup.2

/-- C4: when `result.task_id` names an active delegation, `resolveTask`
clears its timer, deletes the entry, resolves the pending promise with
the result and returns `true`; an unknown task id returns `false` with
the state untouched; consequently a second `resolveTask` on the same
task id returns `false`. -/
theorem resolveTask_once (w : DelegationWorld) (result : SwarmTaskResult)
    (hkeys : ∀ kv ∈ w.activeDelegations, kv.2.task_id = kv.1)
    (hnodup : (w.activeDelegations.map Prod.fst).Nodup) :
    (∀ d, findDelegationByTaskId w.activeDelegations result.task_id = some d →
        resolveTask w result =
          ({ activeDelegations := deleteDelegation w.activeDelegations result.task_id,
             events := w.events ++
               [.timerCleared result.task_id,
                .promiseResolved result.task_id result] },
           true) ∧
        (resolveTask (resolveTask w result).1 result).2 = false) ∧
    (findDelegationByTaskId w.activeDelegations result.task_id = none →
        resolveTask w result = (w, false)) := by
  constructor
  · intro d hd
    have hdk : d.task_id = result.task_id :=
      hkeys (result.task_id, d) (findDelegation_some_mem _ _ _ hd)
    have h1 : resolveTask w result =
        ({ activeDelegations := deleteDelegation w.activeDelegations result.task_id,
           events := w.events ++
             [.timerCleared result.task_id,
              .promiseResolved result.task_id result] },
         true) := by
      simp [resolveTask, hd, hdk]
    refine ⟨h1, ?_⟩
    rw [h1]
    have hnone : findDelegationByTaskId
        (deleteDelegation w.activeDelegations result.task_id) result.task_id = none :=
      findDelegation_delete_self _ _ hnodup
    simp [resolveTask, hnone]
  · intro hnone
    simp [resolveTask, hnone]

/-- Witness for C4 at the concrete world `sampleWorld`, whose single
delegation carries task id `"task-1"`, resolved by `sampleResult`. -/
theorem resolveTask_once_witness :
    resolveTask sampleWorld sampleResult =
      ({ activeDelegations :=
           deleteDelegation sampleWorld.activeDelegations sampleResult.task_id,
         events := sampleWorld.events ++
           [.timerCleared sampleResult.task_id,
            .promiseResolved sampleResult.task_id sampleResult] },
       true) ∧
    (resolveTask (resolveTask sampleWorld sampleResult).1 sampleResult).2 = false :=
  (resolveTask_once sampleWorld sampleResult (by decide) (by decide)).1
    sampleDelegation (by decide)

/-- C7: `cancelAll` clears the timer of and rejects with the
cancellation error every outstanding delegation, and empties the
active-delegations map, so `activeCount` is 0 afterwards. -/
theorem cancelAll_clears (w : DelegationWorld) :
    (cancelAll w).activeDelegations = [] ∧
    activeCount (cancelAll w) = 0 ∧
    ∀ kv ∈ w.activeDelegations,
      DistEvent.timerCleared kv.2.task_id ∈ (cancelAll w).events ∧
      DistEvent.promiseRejected kv.2.task_id "Delegation cancelled" ∈
        (cancelAll w).events := by
  refine ⟨rfl, rfl, ?_⟩
  intro kv hkv
  constructor
  · simp only [cancelAll, List.mem_append, List.mem_flatten, List.mem_map]
    exact Or.inr ⟨_, ⟨kv, hkv, rfl⟩, by simp⟩
  · simp only [cancelAll, List.mem_append, List.mem_flatten, List.mem_map]
    exact Or.inr ⟨_, ⟨kv, hkv, rfl⟩, by simp⟩

/-- Witness for C7 at the concrete world `sampleWorld`. -/
theorem cancelAll_clears_witness :
    activeCount (cancelAll sampleWorld) = 0 ∧
    DistEvent.timerCleared sampleDelegation.task_id ∈ (cancelAll sampleWorld).events :=
  ⟨(cancelAll_clears sampleWorld).2.1,
   ((cancelAll_clears sampleWorld).2.2 ("task-1", sampleDelegation) (by decide)).1⟩

/-- C3 (against the spec-modelled `handleTaskRequest`, the
implementation file being absent from the sources): if `r1`'s nonce is
recorded (a factory is configured and the nonce is not already in the
ledger when `r1` arrives), then a request `r2` with the same nonce
arriving less than `windowMs` after `r1` is answered
`{accepted := false, reason := "Replayed nonce"}` and the session
factory is not invoked for `r2`. -/
theorem handleTaskRequest_replay_window
    (ledger : NonceLedger) (f : SwarmTaskRequest → TaskResponse)
    (g : Option (SwarmTaskRequest → TaskResponse))
    (windowMs now1 now2 : Int) (r1 r2 : SwarmTaskRequest)
    (hnonce : r2.nonce = r1.nonce)
    (hfresh : ∀ kv ∈ expireLedger ledger windowMs now1, kv.1 ≠ r1.nonce)
    (hwin : now2 - now1 < windowMs) :
    (handleTaskRequest (handleTaskRequest ledger (some f) windowMs now1 r1).1
        g windowMs now2 r2).2.1 =
      ⟨false, some "Replayed nonce", none⟩ ∧
    (handleTaskRequest (handleTaskRequest ledger (some f) windowMs now1 r1).1
        g windowMs now2 r2).2.2 = false := by
  have hany1 : (expireLedger ledger windowMs now1).any
      (fun kv => kv.1 = r1.nonce) = false := by
    rw [List.any_eq_false]
    intro kv hkv
    simp [hfresh kv hkv]
  have h1 : (handleTaskRequest ledger (some f) windowMs now1 r1).1 =
      expireLedger ledger windowMs now1 ++ [(r1.nonce, now1)] := by
    simp [handleTaskRequest, hany1]
  have hmem : (r1.nonce, now1) ∈
      expireLedger (expireLedger ledger windowMs now1 ++ [(r1.nonce, now1)])
        windowMs now2 := by
    simp only [expireLedger, List.mem_filter, List.mem_append, List.mem_singleton]
    exact ⟨Or.inr trivial, by simpa using hwin⟩
  have hany2 : (expireLedger (expireLedger ledger windowMs now1 ++ [(r1.nonce, now1)])
      windowMs now2).any (fun kv => kv.1 = r2.nonce) = true := by
    rw [List.any_eq_true]
    exact ⟨(r1.nonce, now1), hmem, by simp [hnonce]⟩
  rw [h1]
  constructor
  · simp [handleTaskRequest, hany2]
  · simp [handleTaskRequest, hany2]

/-- Witness for C3 with an empty initial ledger, window 300000 ms, `r1`
at 1000 ms and the replay at 2000 ms. -/
theorem handleTaskRequest_replay_window_witness :
    (handleTaskRequest
        (handleTaskRequest [] (some (fun _ => ⟨true, none, some "sess-X"⟩))
          300000 1000 sampleRequest).1
        (some (fun _ => ⟨true, none, some "sess-X"⟩)) 300000 2000
        { sampleRequest with task_id := "task-2" }).2.1 =
      ⟨false, some "Replayed nonce", none⟩ ∧
    (handleTaskRequest
        (handleTaskRequest [] (some (fun _ => ⟨true, none, some "sess-X"⟩))
          300000 1000 sampleRequest).1
        (some (fun _ => ⟨true, none, some "sess-X"⟩)) 300000 2000
        { sampleRequest with task_id := "task-2" }).2.2 = false :=
  handleTaskRequest_replay_window [] (fun _ => ⟨true, none, some "sess-X"⟩)
    (some (fun _ => ⟨true, none, some "sess-X"⟩)) 300000 1000 2000
    sampleRequest { sampleRequest with task_id := "task-2" }
    rfl (by decide) (by decide)

/-! ### Sweep decomposition lemmas -/

theorem sweep_table_mono (k : String) (e : PeerEntry) (rest : PeerTable)
    (now : Int) (th : SweepThresholds) :
    ∀ x, x ∈ (sweep rest now th).table → x ∈ (sweep ((k, e) :: rest) now th).table := by
  intro x hx
  simp only [sweep]
  split_ifs <;> first
    | exact List.mem_cons_of_mem _ hx
    | exact hx

theorem sweep_suspected_mono (k : String) (e : PeerEntry) (rest : PeerTable)
    (now : Int) (th : SweepThresholds) :
    ∀ x, x ∈ (sweep rest now th).suspected →
      x ∈ (sweep ((k, e) :: rest) now th).suspected := by
  intro x hx
  simp only [sweep]
  split_ifs <;> first
    | exact List.mem_cons_of_mem _ hx
    | exact hx

theorem sweep_unreachable_mono (k : String) (e : PeerEntry) (rest : PeerTable)
    (now : Int) (th : SweepThresholds) :
    ∀ x, x ∈ (sweep rest now th).unreachable →
      x ∈ (sweep ((k, e) :: rest) now th).unreachable := by
  intro x hx
  simp only [sweep]
  split_ifs <;> first
    | exact List.mem_cons_of_mem _ hx
    | exact hx

theorem sweep_evicted_mono (k : String) (e : PeerEntry) (rest : PeerTable)
    (now : Int) (th : SweepThresholds) :
    ∀ x, x ∈ (sweep rest now th).evicted →
      x ∈ (sweep ((k, e) :: rest) now th).evicted := by
  intro x hx
  simp only [sweep]
  split_ifs <;> first
    | exact List.mem_cons_of_mem _ hx
    | exact hx

theorem sweep_table_cons_sub (k : String) (e : PeerEntry) (rest : PeerTable)
    (now : Int) (th : SweepThresholds) :
    ∀ p, p ∈ (sweep ((k, e) :: rest) now th).table →
      p.1 = k ∨ p ∈ (sweep rest now th).table := by
  intro p hp
  simp only [sweep] at hp
  split_ifs at hp <;>
    first
      | exact Or.inr hp
      | rcases List.mem_cons.mp hp with h | h
        · exact Or.inl (by rw [h])
        · exact Or.inr h

theorem sweep_table_keys_cons_sub (k : String) (e : PeerEntry) (rest : PeerTable)
    (now : Int) (th : SweepThresholds) :
    ∀ x, x ∈ (sweep ((k, e) :: rest) now th).table.map Prod.fst →
      x = k ∨ x ∈ (sweep rest now th).table.map Prod.fst := by
  intro x hx
  rcases List.mem_map.mp hx with ⟨p, hp, hpx⟩
  rcases sweep_table_cons_sub k e rest now th p hp with h | h
  · exact Or.inl (hpx ▸ h)
  · exact Or.inr (hpx ▸ List.mem_map_of_mem Prod.fst h)

theorem sweep_suspected_cons_sub (k : String) (e : PeerEntry) (rest : PeerTable)
    (now : Int) (th : SweepThresholds) :
    ∀ x, x ∈ (sweep ((k, e) :: rest) now th).suspected →
      x = k ∨ x ∈ (sweep rest now th).suspected := by
  intro x hx
  simp only [sweep] at hx
  split_ifs at hx <;>
    first
      | exact Or.inr hx
      | exact List.mem_cons.mp hx

theorem sweep_unreachable_cons_sub (k : String) (e : PeerEntry) (rest : PeerTable)
    (now : Int) (th : SweepThresholds) :
    ∀ x, x ∈ (sweep ((k, e) :: rest) now th).unreachable →
      x = k ∨ x ∈ (sweep rest now th).unreachable := by
  intro x hx
  simp only [sweep] at hx
  split_ifs at hx <;>
    first
      | exact Or.inr hx
      | exact List.mem_cons.mp hx

theorem sweep_evicted_cons_sub (k : String) (e : PeerEntry) (rest : PeerTable)
    (now : Int) (th : SweepThresholds) :
    ∀ x, x ∈ (sweep ((k, e) :: rest) now th).evicted →
      x = k ∨ x ∈ (sweep rest now th).evicted := by
  intro x hx
  simp only [sweep] at hx
  split_ifs at hx <;>
    first
      | exact Or.inr hx
      | exact List.mem_cons.mp hx

theorem sweep_suspected_sub_keys (t : PeerTable) (now : Int) (th : SweepThresholds) :
    ∀ x, x ∈ (sweep t now th).suspected → x ∈ t.map Prod.fst := by
  induction t with
  | nil => intro x hx; simp [sweep] at hx
  | cons kv rest ih =>
    obtain ⟨k, e⟩ := kv
    intro x hx
    rcases sweep_suspected_cons_sub k e rest now th x hx with h | h
    · exact h ▸ List.mem_cons_self _ _
    · exact List.mem_cons_of_mem _ (ih x h)

theorem sweep_unreachable_sub_keys (t : PeerTable) (now : Int) (th : SweepThresholds) :
    ∀ x, x ∈ (sweep t now th).unreachable → x ∈ t.map Prod.fst := by
  induction t with
  | nil => intro x hx; simp [sweep] at hx
  | cons kv rest ih =>
    obtain ⟨k, e⟩ := kv
    intro x hx
    rcases sweep_unreachable_cons_sub k e rest now th x hx with h | h
    · exact h ▸ List.mem_cons_self _ _
    · exact List.mem_cons_of_mem _ (ih x h)

theorem sweep_evicted_sub_keys (t : PeerTable) (now : Int) (th : SweepThresholds) :
    ∀ x, x ∈ (sweep t now th).evicted → x ∈ t.map Prod.fst := by
  induction t with
  | nil => intro x hx; simp [sweep] at hx
  | cons kv rest ih =>
    obtain ⟨k, e⟩ := kv
    intro x hx
    rcases sweep_evicted_cons_sub k e rest now th x hx with h | h
    · exact h ▸ List.mem_cons_self _ _
    · exact List.mem_cons_of_mem _ (ih x h)

theorem sweep_table_keys_sublist (t : PeerTable) (now : Int) (th : SweepThresholds) :
    ((sweep t now th).table.map Prod.fst).Sublist (t.map Prod.fst) := by
  induction t with
  | nil => simp [sweep]
  | cons kv rest ih =>
    obtain ⟨k, e⟩ := kv
    simp only [sweep, List.map_cons]
    split_ifs <;>
      first
        | exact List.Sublist.cons₂ _ ih
        | exact List.Sublist.cons _ ih

theorem sweep_table_sub_keys (t : PeerTable) (now : Int) (th : SweepThresholds) :
    ∀ x, x ∈ (sweep t now th).table.map Prod.fst → x ∈ t.map Prod.fst :=
  fun _ hx => (sweep_table_keys_sublist t now th).subset hx

/-- C1: `sweep` applies to each non-left entry exactly the first
matching transition, highest threshold first — age at or above the evict
threshold removes the entry and reports it evicted; otherwise age at or
above the unreachable threshold (status not already unreachable) marks
it unreachable; otherwise age at or above the suspected threshold
(status active) marks it suspected; otherwise, and for every entry with
status `left`, the entry is untouched and named in no returned list. -/
theorem sweep_transitions (t : PeerTable) (now : Int) (th : SweepThresholds)
    (hnodup : (t.map Prod.fst).Nodup) :
    ∀ nodeId peer, (nodeId, peer) ∈ t →
      (peer.status = .left →
        (nodeId, peer) ∈ (sweep t now th).table ∧
        nodeId ∉ (sweep t now th).suspected ∧
        nodeId ∉ (sweep t now th).unreachable ∧
        nodeId ∉ (sweep t now th).evicted) ∧
      (peer.status ≠ .left →
        (th.evict_after_ms ≤ now - peer.last_heartbeat_at →
          nodeId ∉ (sweep t now th).table.map Prod.fst ∧
          nodeId ∈ (sweep t now th).evicted) ∧
        (now - peer.last_heartbeat_at < th.evict_after_ms →
         th.unreachable_after_ms ≤ now - peer.last_heartbeat_at →
         peer.status ≠ .unreachable →
          (nodeId, { peer with status := .unreachable }) ∈ (sweep t now th).table ∧
          nodeId ∈ (sweep t now th).unreachable ∧
          nodeId ∉ (sweep t now th).suspected ∧
          nodeId ∉ (sweep t now th).evicted) ∧
        (now - peer.last_heartbeat_at < th.evict_after_ms →
         now - peer.last_heartbeat_at < th.unreachable_after_ms →
         th.suspected_after_ms ≤ now - peer.last_heartbeat_at →
         peer.status = .active →
          (nodeId, { peer with status := .suspected }) ∈ (sweep t now th).table ∧
          nodeId ∈ (sweep t now th).suspected ∧
          nodeId ∉ (sweep t now th).unreachable ∧
          nodeId ∉ (sweep t now th).evicted) ∧
        (now - peer.last_heartbeat_at < th.evict_after_ms →
         (th.unreachable_after_ms ≤ now - peer.last_heartbeat_at →
           peer.status = .unreachable) →
         (th.suspected_after_ms ≤ now - peer.last_heartbeat_at →
           peer.status ≠ .active) →
          (nodeId, peer) ∈ (sweep t now th).table ∧
          nodeId ∉ (sweep t now th).suspected ∧
          nodeId ∉ (sweep t now th).unreachable ∧
          nodeId ∉ (sweep t now th).evicted)) := by
  induction t with
  | nil => intro nodeId peer hmem; simp at hmem
  | cons kv rest ih =>
    obtain ⟨k, e⟩ := kv
    simp only [List.map_cons, List.nodup_cons] at hnodup
    obtain ⟨hknot, hrest⟩ := hnodup
    have IH := ih hrest
    intro nodeId peer hmem
    rcases List.mem_cons.mp hmem with hhd | htl
    · injection hhd with hn hp
      subst hn
      subst hp
      refine ⟨?_, ?_⟩
      · intro hleft
        have hc : sweep ((nodeId, peer) :: rest) now th =
            ⟨(nodeId, peer) :: (sweep rest now th).table,
              (sweep rest now th).suspected,
              (sweep rest now th).unreachable,
              (sweep rest now th).evicted⟩ := by
          simp only [sweep]
          rw [if_pos hleft]
        rw [hc]
        exact ⟨List.mem_cons_self _ _,
          fun hx => hknot (sweep_suspected_sub_keys rest now th _ hx),
          fun hx => hknot (sweep_unreachable_sub_keys rest now th _ hx),
          fun hx => hknot (sweep_evicted_sub_keys rest now th _ hx)⟩
      · intro hnl
        refine ⟨?_, ?_, ?_, ?_⟩
        · intro hev
          have hc : sweep ((nodeId, peer) :: rest) now th =
              ⟨(sweep rest now th).table,
                (sweep rest now th).suspected,
                (sweep rest now th).unreachable,
                nodeId :: (sweep rest now th).evicted⟩ := by
            simp only [sweep]
            rw [if_neg hnl, if_pos hev]
          rw [hc]
          exact ⟨fun hx => hknot (sweep_table_sub_keys rest now th _ hx),
            List.mem_cons_self _ _⟩
        · intro hltE hunr hnu
          have hc : sweep ((nodeId, peer) :: rest) now th =
              ⟨(nodeId, { peer with status := .unreachable }) :: (sweep rest now th).table,
                (sweep rest now th).suspected,
                nodeId :: (sweep rest now th).unreachable,
                (sweep rest now th).evicted⟩ := by
            simp only [sweep]
            rw [if_neg hnl, if_neg (not_le.mpr hltE), if_pos ⟨hunr, hnu⟩]
          rw [hc]
          exact ⟨List.mem_cons_self _ _, List.mem_cons_self _ _,
            fun hx => hknot (sweep_suspected_sub_keys rest now th _ hx),
            fun hx => hknot (sweep_evicted_sub_keys rest now th _ hx)⟩
        · intro hltE hltU hsus hact
          have hnu2 : ¬(th.unreachable_after_ms ≤ now - peer.last_heartbeat_at ∧
              peer.status ≠ .unreachable) :=
            fun h => absurd h.1 (not_le.mpr hltU)
          have hc : sweep ((nodeId, peer) :: rest) now th =
              ⟨(nodeId, { peer with status := .suspected }) :: (sweep rest now th).table,
                nodeId :: (sweep rest now th).suspected,
                (sweep rest now th).unreachable,
                (sweep rest now th).evicted⟩ := by
            simp only [sweep]
            rw [if_neg hnl, if_neg (not_le.mpr hltE), if_neg hnu2, if_pos ⟨hsus, hact⟩]
          rw [hc]
          exact ⟨List.mem_cons_self _ _, List.mem_cons_self _ _,
            fun hx => hknot (sweep_unreachable_sub_keys rest now th _ hx),
            fun hx => hknot (sweep_evicted_sub_keys rest now th _ hx)⟩
        · intro hltE himpU himpS
          have hnu2 : ¬(th.unreachable_after_ms ≤ now - peer.last_heartbeat_at ∧
              peer.status ≠ .unreachable) :=
            fun h => h.2 (himpU h.1)
          have hns2 : ¬(th.suspected_after_ms ≤ now - peer.last_heartbeat_at ∧
              peer.status = .active) :=
            fun h => himpS h.1 h.2
          have hc : sweep ((nodeId, peer) :: rest) now th =
              ⟨(nodeId, peer) :: (sweep rest now th).table,
                (sweep rest now th).suspected,
                (sweep rest now th).unreachable,
                (sweep rest now th).evicted⟩ := by
            simp only [sweep]
            rw [if_neg hnl, if_neg (not_le.mpr hltE), if_neg hnu2, if_neg hns2]
          rw [hc]
          exact ⟨List.mem_cons_self _ _,
            fun hx => hknot (sweep_suspected_sub_keys rest now th _ hx),
            fun hx => hknot (sweep_unreachable_sub_keys rest now th _ hx),
            fun hx => hknot (sweep_evicted_sub_keys rest now th _ hx)⟩
    · have hne : nodeId ≠ k := by
        intro h
        exact hknot (h ▸ List.mem_map_of_mem Prod.fst htl)
      obtain ⟨IHl, IHn⟩ := IH nodeId peer htl
      refine ⟨?_, ?_⟩
      · intro hleft
        obtain ⟨h1, h2, h3, h4⟩ := IHl hleft
        exact ⟨sweep_table_mono k e rest now th _ h1,
          fun hx => (sweep_suspected_cons_sub k e rest now th _ hx).elim hne h2,
          fun hx => (sweep_unreachable_cons_sub k e rest now th _ hx).elim hne h3,
          fun hx => (sweep_evicted_cons_sub k e rest now th _ hx).elim hne h4⟩
      · intro hnl
        obtain ⟨I1, I2, I3, I4⟩ := IHn hnl
        refine ⟨?_, ?_, ?_, ?_⟩
        · intro hev
          obtain ⟨h1, h2⟩ := I1 hev
          exact ⟨fun hx => (sweep_table_keys_cons_sub k e rest now th _ hx).elim hne h1,
            sweep_evicted_mono k e rest now th _ h2⟩
        · intro hltE hunr hnu
          obtain ⟨h1, h2, h3, h4⟩ := I2 hltE hunr hnu
          exact ⟨sweep_table_mono k e rest now th _ h1,
            sweep_unreachable_mono k e rest now th _ h2,
            fun hx => (sweep_suspected_cons_sub k e rest now th _ hx).elim hne h3,
            fun hx => (sweep_evicted_cons_sub k e rest now th _ hx).elim hne h4⟩
        · intro hltE hltU hsus hact
          obtain ⟨h1, h2, h3, h4⟩ := I3 hltE hltU hsus hact
          exact ⟨sweep_table_mono k e rest now th _ h1,
            sweep_suspected_mono k e rest now th _ h2,
            fun hx => (sweep_unreachable_cons_sub k e rest now th _ hx).elim hne h3,
            fun hx => (sweep_evicted_cons_sub k e rest now th _ hx).elim hne h4⟩
        · intro hltE himpU himpS
          obtain ⟨h1, h2, h3, h4⟩ := I4 hltE himpU himpS
          exact ⟨sweep_table_mono k e rest now th _ h1,
            fun hx => (sweep_suspected_cons_sub k e rest now th _ hx).elim hne h2,
            fun hx => (sweep_unreachable_cons_sub k e rest now th _ hx).elim hne h3,
            fun hx => (sweep_evicted_cons_sub k e rest now th _ hx).elim hne h4⟩

/-- Witness for C1: with the default thresholds at time 200000 ms, the
active peer `node-a` (heartbeat at 1000 ms, so age 199000 ≥ 120000) is
removed from the table and reported evicted. -/
theorem sweep_transitions_witness :
    "node-a" ∉ (sweep [("node-a", entryA), ("node-l", entryLeft)] 200000
      ⟨15000, 30000, 120000⟩).table.map Prod.fst ∧
    "node-a" ∈ (sweep [("node-a", entryA), ("node-l", entryLeft)] 200000
      ⟨15000, 30000, 120000⟩).evicted :=
  (((sweep_transitions [("node-a", entryA), ("node-l", entryLeft)] 200000
      ⟨15000, 30000, 120000⟩ (by decide)) "node-a" entryA
      (List.mem_cons_self _ _)).2 (by decide)).1 (by decide)

theorem sweep_table_shape (t : PeerTable) (now : Int) (th : SweepThresholds) :
    ∀ k e', (k, e') ∈ (sweep t now th).table →
      ∃ e, (k, e) ∈ t ∧
        (e' = e ∨
         (e.status ≠ .left ∧ e.status ≠ .unreachable ∧
           e' = { e with status := .unreachable }) ∨
         (e.status = .active ∧ e' = { e with status := .suspected })) := by
  induction t with
  | nil => intro k e' h; simp [sweep] at h
  | cons kv rest ih =>
    obtain ⟨a, b⟩ := kv
    intro k e' h
    simp only [sweep] at h
    split_ifs at h with h1 h2 h3 h4
    · rcases List.mem_cons.mp h with hh | ht
      · injection hh with hk he
        subst hk
        exact ⟨b, List.mem_cons_self _ _, Or.inl he⟩
      · obtain ⟨e, hmem, hrel⟩ := ih k e' ht
        exact ⟨e, List.mem_cons_of_mem _ hmem, hrel⟩
    · obtain ⟨e, hmem, hrel⟩ := ih k e' h
      exact ⟨e, List.mem_cons_of_mem _ hmem, hrel⟩
    · rcases List.mem_cons.mp h with hh | ht
      · injection hh with hk he
        subst hk
        exact ⟨b, List.mem_cons_self _ _, Or.inr (Or.inl ⟨h1, h3.2, he⟩)⟩
      · obtain ⟨e, hmem, hrel⟩ := ih k e' ht
        exact ⟨e, List.mem_cons_of_mem _ hmem, hrel⟩
    · rcases List.mem_cons.mp h with hh | ht
      · injection hh with hk he
        subst hk
        exact ⟨b, List.mem_cons_self _ _, Or.inr (Or.inr ⟨h4.2, he⟩)⟩
      · obtain ⟨e, hmem, hrel⟩ := ih k e' ht
        exact ⟨e, List.mem_cons_of_mem _ hmem, hrel⟩
    · rcases List.mem_cons.mp h with hh | ht
      · injection hh with hk he
        subst hk
        exact ⟨b, List.mem_cons_self _ _, Or.inl he⟩
      · obtain ⟨e, hmem, hrel⟩ := ih k e' ht
        exact ⟨e, List.mem_cons_of_mem _ hmem, hrel⟩

theorem shape_rank_le (e e' : PeerEntry)
    (hrel : e' = e ∨
      (e.status ≠ .left ∧ e.status ≠ .unreachable ∧
        e' = { e with status := .unreachable }) ∨
      (e.status = .active ∧ e' = { e with status := .suspected })) :
    statusRank e.status ≤ statusRank e'.status ∧ (e.status = .left → e' = e) := by
  rcases hrel with rfl | ⟨hl, hu, rfl⟩ | ⟨ha, rfl⟩
  · exact ⟨le_refl _, fun _ => rfl⟩
  · constructor
    · cases h : e.status
      · simp [statusRank]
      · simp [statusRank]
      · exact absurd h hu
      · exact absurd h hl
    · intro hle
      exact absurd hle hl
  · constructor
    · rw [ha]
      simp [statusRank]
    · intro hle
      rw [ha] at hle
      exact absurd hle (by simp)

theorem mem_unique_of_nodup_keys (t : PeerTable) (hnodup : (t.map Prod.fst).Nodup)
    (k : String) (e1 e2 : PeerEntry) (h1 : (k, e1) ∈ t) (h2 : (k, e2) ∈ t) :
    e1 = e2 := by
  induction t with
  | nil => simp at h1
  | cons kv rest ih =>
    obtain ⟨a, b⟩ := kv
    simp only [List.map_cons, List.nodup_cons] at hnodup
    rcases List.mem_cons.mp h1 with hh1 | ht1 <;>
      rcases List.mem_cons.mp h2 with hh2 | ht2
    · injection hh1 with hk1 he1
      injection hh2 with hk2 he2
      rw [he1, he2]
    · injection hh1 with hk1 he1
      exact absurd (hk1 ▸ List.mem_map_of_mem Prod.fst ht2) hnodup.1
    · injection hh2 with hk2 he2
      exact absurd (hk2 ▸ List.mem_map_of_mem Prod.fst ht1) hnodup.1
    · exact ih hnodup.2 ht1 ht2

theorem sweep_step_no_regress (t : PeerTable) (now : Int) (th : SweepThresholds)
    (hnodup : (t.map Prod.fst).Nodup) :
    ∀ k e e', (k, e) ∈ t → (k, e') ∈ (sweep t now th).table →
      statusRank e.status ≤ statusRank e'.status ∧ (e.status = .left → e' = e) := by
  intro k e e' hmem hmem'
  obtain ⟨e0, hmem0, hrel⟩ := sweep_table_shape t now th k e' hmem'
  have h0 : e0 = e := mem_unique_of_nodup_keys t hnodup k e0 e hmem0 hmem
  subst h0
  exact shape_rank_le e0 e' hrel

theorem sweepSeq_keys_sub (steps : List (Int × SweepThresholds)) (t : PeerTable) :
    ∀ x, x ∈ (sweepSeq steps t).map Prod.fst → x ∈ t.map Prod.fst := by
  induction steps generalizing t with
  | nil => intro x hx; exact hx
  | cons s rest ih =>
    obtain ⟨now, th⟩ := s
    intro x hx
    have hmid := ih (sweep t now th).table x (by simpa [sweepSeq] using hx)
    exact sweep_table_sub_keys t now th x hmid

/-- C9: with thresholds satisfying suspected ≤ unreachable ≤ evict, a
sequence of sweeps (no intervening heartbeat or add) never regresses a
peer's status: the rank along active → suspected → unreachable only
grows, and a peer with status `left` is never transitioned. -/
theorem sweepSeq_no_regress (steps : List (Int × SweepThresholds)) (t : PeerTable)
    (hnodup : (t.map Prod.fst).Nodup)
    (hord : ∀ s ∈ steps, s.2.suspected_after_ms ≤ s.2.unreachable_after_ms ∧
        s.2.unreachable_after_ms ≤ s.2.evict_after_ms) :
    ∀ k e e', (k, e) ∈ t → (k, e') ∈ sweepSeq steps t →
      statusRank e.status ≤ statusRank e'.status ∧ (e.status = .left → e' = e) := by
  induction steps generalizing t with
  | nil =>
    intro k e e' hmem hmem'
    have h0 : e' = e := mem_unique_of_nodup_keys t hnodup k e' e hmem' hmem
    subst h0
    exact ⟨le_refl _, fun _ => rfl⟩
  | cons s rest ih =>
    obtain ⟨now, th⟩ := s
    intro k e e' hmem hmem'
    have hmem2 : (k, e') ∈ sweepSeq rest (sweep t now th).table := by
      simpa [sweepSeq] using hmem'
    have hk : k ∈ (sweep t now th).table.map Prod.fst :=
      sweepSeq_keys_sub rest _ k (List.mem_map_of_mem Prod.fst hmem2)
    obtain ⟨⟨pk, pe⟩, hp, hpk⟩ := List.mem_map.mp hk
    have hp2 : (k, pe) ∈ (sweep t now th).table := by
      cases hpk
      exact hp
    have hmid := sweep_step_no_regress t now th hnodup k e pe hmem hp2
    have hnodup2 : ((sweep t now th).table.map Prod.fst).Nodup :=
      (sweep_table_keys_sublist t now th).nodup hnodup
    have hord2 : ∀ s ∈ rest, s.2.suspected_after_ms ≤ s.2.unreachable_after_ms ∧
        s.2.unreachable_after_ms ≤ s.2.evict_after_ms :=
      fun s hs => hord s (List.mem_cons_of_mem _ hs)
    have htail := ih (sweep t now th).table hnodup2 hord2 k pe e' hp2 hmem2
    refine ⟨le_trans hmid.1 htail.1, fun hl => ?_⟩
    have hpe : pe = e := hmid.2 hl
    have hfin := htail.2 (by rw [hpe, hl])
    rw [hfin, hpe]

/-- Witness for C9: one sweep at 20000 ms with the default thresholds
moves the active peer `node-a` (age 19000) forward to suspected. -/
theorem sweepSeq_no_regress_witness :
    statusRank entryA.status ≤
      statusRank ({ entryA with status := .suspected } : PeerEntry).status ∧
    (entryA.status = .left → ({ entryA with status := .suspected } : PeerEntry) = entryA) :=
  sweepSeq_no_regress [(20000, ⟨15000, 30000, 120000⟩)] [("node-a", entryA)]
    (by decide) (by decide) "node-a" entryA { entryA with status := .suspected }
    (List.mem_cons_self _ _) (by decide)

/-- C8: under strategy `capability_match` with a non-empty allowlist,
`selectPeers` returns exactly the active peers whose capability set
meets the allowlist — one overlapping tool qualifies a peer, and peers
with no overlap are excluded. -/
theorem selectPeers_capability_match (st : DistState) (t : PeerTable)
    (c : SwarmTaskConstraints) (required : List String)
    (hstrat : st.strategy = .capability_match)
    (hallow : c.tool_allowlist = some required)
    (hne : required ≠ []) :
    (selectPeers st (getActive t) (some c)).1 =
      (getActive t).filter (fun peer =>
        required.any (fun tool => peer.identity.capabilities.contains tool)) ∧
    ∀ peer, peer ∈ (selectPeers st (getActive t) (some c)).1 ↔
      ((∃ k, (k, peer) ∈ t) ∧ peer.status = .active ∧
        ∃ tool ∈ required, tool ∈ peer.identity.capabilities) := by
  obtain ⟨r0, rs, rfl⟩ := List.exists_cons_of_ne_nil hne
  have hsel : (selectPeers st (getActive t) (some c)).1 =
      (getActive t).filter (fun peer =>
        (r0 :: rs).any (fun tool => peer.identity.capabilities.contains tool)) := by
    simp [selectPeers, hstrat, hallow]
  refine ⟨hsel, ?_⟩
  intro peer
  rw [hsel]
  simp only [getActive, List.mem_filter, List.mem_map, List.any_eq_true,
    decide_eq_true_eq, List.elem_iff]
  constructor
  · rintro ⟨⟨⟨⟨k, e⟩, hkv, rfl⟩, hactive⟩, tool, htool, hcap⟩
    exact ⟨⟨k, hkv⟩, hactive, tool, htool, hcap⟩
  · rintro ⟨⟨k, hkv⟩, hactive, tool, htool, hcap⟩
    exact ⟨⟨⟨(k, peer), hkv, rfl⟩, hactive⟩, tool, htool, hcap⟩

/-- Witness for C8: allowlist `["read-file"]` over a table holding the
active peers node-a (read-file) and node-c (read-file, write-file) and
the suspected peer node-b (shell-exec). -/
theorem selectPeers_capability_match_witness :
    (selectPeers ⟨.capability_match, 0⟩
      (getActive [("node-a", entryA), ("node-b", entryB), ("node-c", entryC)])
      (some ⟨some ["read-file"], none, none, none⟩)).1 =
      (getActive [("node-a", entryA), ("node-b", entryB), ("node-c", entryC)]).filter
        (fun peer => ["read-file"].any
          (fun tool => peer.identity.capabilities.contains tool)) :=
  (selectPeers_capability_match ⟨.capability_match, 0⟩
    [("node-a", entryA), ("node-b", entryB), ("node-c", entryC)]
    ⟨some ["read-file"], none, none, none⟩ ["read-file"] rfl rfl (by decide)).1

/-! ### Distribute loop lemmas -/

theorem distributeLoop_congr (attempt attempt2 : PeerEntry → Except String SwarmTaskResult)
    (m : Nat) :
    ∀ (peers : List PeerEntry) (a : Nat) (le : Option String),
      (∀ p ∈ peers.take (m + 1 - a), attempt2 p = attempt p) →
      distributeLoop attempt m peers a le = distributeLoop attempt2 m peers a le := by
  intro peers
  induction peers with
  | nil => intro a le h; rfl
  | cons p rest ih =>
    intro a le h
    by_cases ha : m + 1 ≤ a
    · simp [distributeLoop, ha]
    · have hlt : a < m + 1 := Nat.not_le.mp ha
      have htake : (p :: rest).take (m + 1 - a) = p :: rest.take (m - a) := by
        have : m + 1 - a = (m - a) + 1 := by omega
        rw [this, List.take_succ_cons]
      rw [htake] at h
      have hp := h p (List.mem_cons_self _ _)
      simp only [distributeLoop, if_neg ha, hp]
      cases hatt : attempt p with
      | ok r => rfl
      | error e =>
        have : m + 1 - (a + 1) = m - a := by omega
        exact ih (a + 1) (some e) (by rw [this]; exact fun q hq => h q (List.mem_cons_of_mem _ hq))

theorem distributeLoop_first_ok (attempt : PeerEntry → Except String SwarmTaskResult)
    (m : Nat) :
    ∀ (peers : List PeerEntry) (a : Nat) (le : Option String) (j : Nat)
      (hj : j < peers.length) (r : SwarmTaskResult),
      a + j < m + 1 →
      (∀ i (hi : i < j), ∃ e, attempt (peers.get ⟨i, Nat.lt_trans hi hj⟩) = .error e) →
      attempt (peers.get ⟨j, hj⟩) = .ok r →
      distributeLoop attempt m peers a le = .ok r := by
  intro peers
  induction peers with
  | nil => intro a le j hj; simp at hj
  | cons p rest ih =>
    intro a le j hj r hbudget hfails hok
    have ha : ¬ (m + 1 ≤ a) := by omega
    cases j with
    | zero =>
      simp only [List.get] at hok
      simp [distributeLoop, ha, hok]
    | succ j =>
      obtain ⟨e0, he0⟩ := hfails 0 (Nat.succ_pos j)
      simp only [List.get] at he0
      simp only [distributeLoop, if_neg ha, he0]
      exact ih (a + 1) (some e0) j (Nat.lt_of_succ_lt_succ hj) r (by omega)
        (fun i hi => hfails (i + 1) (Nat.succ_lt_succ hi)) hok

theorem distributeLoop_stop (attempt : PeerEntry → Except String SwarmTaskResult)
    (m : Nat) :
    ∀ (peers : List PeerEntry) (a : Nat) (e : String),
      peers.take (m + 1 - a) = [] →
      distributeLoop attempt m peers a (some e) = .error e := by
  intro peers
  cases peers with
  | nil => intro a e h; rfl
  | cons p rest =>
    intro a e h
    have ha : m + 1 ≤ a := by
      by_contra hc
      have : m + 1 - a = (m - a) + 1 := by omega
      rw [this, List.take_succ_cons] at h
      exact List.cons_ne_nil _ _ h
    simp [distributeLoop, ha]

theorem distributeLoop_all_fail (attempt : PeerEntry → Except String SwarmTaskResult)
    (m : Nat) :
    ∀ (peers : List PeerEntry) (a : Nat) (le : Option String),
      (∀ p ∈ peers.take (m + 1 - a), ∃ e, attempt p = .error e) →
      ∀ q e, (peers.take (m + 1 - a)).getLast? = some q → attempt q = .error e →
        distributeLoop attempt m peers a le = .error e := by
  intro peers
  induction peers with
  | nil => intro a le hfail q e hlast; simp at hlast
  | cons p rest ih =>
    intro a le hfail q e hlast hq
    by_cases ha : m + 1 ≤ a
    · have : m + 1 - a = 0 := by omega
      rw [this] at hlast
      simp at hlast
    · have htake : (p :: rest).take (m + 1 - a) = p :: rest.take (m - a) := by
        have : m + 1 - a = (m - a) + 1 := by omega
        rw [this, List.take_succ_cons]
      rw [htake] at hfail hlast
      obtain ⟨e0, he0⟩ := hfail p (List.mem_cons_self _ _)
      simp only [distributeLoop, if_neg ha, he0]
      have hsub : m + 1 - (a + 1) = m - a := by omega
      rcases hrest : rest.take (m - a) with _ | ⟨q0, qs⟩
      · rw [hrest] at hlast
        simp only [List.getLast?_singleton, Option.some.injEq] at hlast
        subst hlast
        rw [he0] at hq
        injection hq with hqe
        subst hqe
        exact distributeLoop_stop attempt m rest (a + 1) e0 (by rw [hsub]; exact hrest)
      · rw [hrest, List.getLast?_cons_cons] at hlast
        exact ih (a + 1) (some e0)
          (by rw [hsub]; exact fun x hx => hfail x (List.mem_cons_of_mem _ hx))
          q e (by rw [hsub, hrest]; exact hlast) hq

/-- C5: `distribute` fails with the "No suitable peers" error when
selection yields no candidates; otherwise it walks the candidates in
order making at most `maxRetries + 1` attempts (its outcome depends only
on the first `maxRetries + 1` candidates), returns the first successful
delegation, treats every failed attempt as a reason to continue, and —
when every attempt fails — surfaces the last recorded error. -/
theorem distribute_walk (st : DistState) (activePeers : List PeerEntry)
    (c : Option SwarmTaskConstraints)
    (attempt : PeerEntry → Except String SwarmTaskResult) (maxRetries : Nat) :
    ((selectPeers st activePeers c).1 = [] →
      (distribute st activePeers c attempt maxRetries).1 =
        .error "No suitable peers available for task distribution") ∧
    (∀ attempt2, (∀ p ∈ (selectPeers st activePeers c).1.take (maxRetries + 1),
        attempt2 p = attempt p) →
      (distribute st activePeers c attempt2 maxRetries).1 =
        (distribute st activePeers c attempt maxRetries).1) ∧
    (∀ (j : Nat) (hj : j < (selectPeers st activePeers c).1.length)
        (r : SwarmTaskResult),
      j < maxRetries + 1 →
      (∀ i (hi : i < j), ∃ e,
        attempt ((selectPeers st activePeers c).1.get ⟨i, Nat.lt_trans hi hj⟩) =
          .error e) →
      attempt ((selectPeers st activePeers c).1.get ⟨j, hj⟩) = .ok r →
      (distribute st activePeers c attempt maxRetries).1 = .ok r) ∧
    ((selectPeers st activePeers c).1 ≠ [] →
      (∀ p ∈ (selectPeers st activePeers c).1.take (maxRetries + 1),
        ∃ e, attempt p = .error e) →
      ∀ q e, ((selectPeers st activePeers c).1.take (maxRetries + 1)).getLast? =
          some q →
        attempt q = .error e →
        (distribute st activePeers c attempt maxRetries).1 = .error e) := by
  refine ⟨?_, ?_, ?_, ?_⟩
  · intro h
    simp [distribute, h]
  · intro attempt2 hagree
    by_cases h : (selectPeers st activePeers c).1.isEmpty
    · simp [distribute, h]
    · have hcongr := distributeLoop_congr attempt attempt2 maxRetries
        (selectPeers st activePeers c).1 0 none
        (by rw [Nat.sub_zero]; exact hagree)
      simp only [distribute, Bool.not_eq_true] at h ⊢
      rw [h]
      simp only [Bool.false_eq_true, if_false]
      exact hcongr.symm
  · intro j hj r hbudget hfails hok
    have hne2 : (selectPeers st activePeers c).1 ≠ [] := by
      intro hnil
      rw [hnil] at hj
      simp at hj
    have hEmpty : (selectPeers st activePeers c).1.isEmpty = false := by
      cases hsel : (selectPeers st activePeers c).1 with
      | nil => exact absurd hsel hne2
      | cons x xs => rfl
    simp only [distribute, hEmpty, Bool.false_eq_true, if_false]
    exact distributeLoop_first_ok attempt maxRetries _ 0 none j hj r
      (by omega) hfails hok
  · intro hne hallfail q e hlast hq
    have hEmpty : (selectPeers st activePeers c).1.isEmpty = false := by
      cases hsel : (selectPeers st activePeers c).1 with
      | nil => exact absurd hsel hne
      | cons x xs => rfl
    simp only [distribute, hEmpty, Bool.false_eq_true, if_false]
    exact distributeLoop_all_fail attempt maxRetries _ 0 none
      (by rw [Nat.sub_zero]; exact hallfail) q e
      (by rw [Nat.sub_zero]; exact hlast) hq

/-- Witness for C5: with no active peers the "No suitable peers" error
surfaces; with two active peers, `maxRetries = 0` and every delegation
failing, the single attempted candidate's error is surfaced. -/
theorem distribute_walk_witness :
    (distribute ⟨.round_robin, 0⟩ [] none (fun _ => .error "nope") 2).1 =
      .error "No suitable peers available for task distribution" ∧
    (distribute ⟨.round_robin, 0⟩ [entryA, entryC] none
        (fun p => .error p.identity.node_id) 0).1 = .error "node-a" :=
  ⟨(distribute_walk ⟨.round_robin, 0⟩ [] none (fun _ => .error "nope") 2).1 rfl,
   (distribute_walk ⟨.round_robin, 0⟩ [entryA, entryC] none
       (fun p => .error p.identity.node_id) 0).2.2.2 (by decide)
     (fun p _ => ⟨p.identity.node_id, rfl⟩) entryA "node-a" (by decide) rfl⟩

/-! ### Round-robin rotation lemmas -/

theorem head?_map_range {α : Type} (n : Nat) (hn : 0 < n) (f : Nat → α) :
    ((List.range n).map f).head? = some (f 0) := by
  cases n with
  | zero => omega
  | succ m =>
    rw [List.range_succ_eq_map]
    rfl

theorem selectPeers_rr_eq (idx : Nat) (peers : List PeerEntry)
    (c : Option SwarmTaskConstraints) (hne : peers ≠ []) :
    selectPeers ⟨.round_robin, idx⟩ peers c =
      ((List.range peers.length).map (fun i =>
        peers.getD ((idx + i) % peers.length) defaultPeerEntry),
       ⟨.round_robin, (idx + 1) % peers.length⟩) := by
  rcases c with _ | cc
  · simp [selectPeers, List.length_pos.mpr hne]
  · simp [selectPeers, List.length_pos.mpr hne]

theorem firstCandidates_rr (peers : List PeerEntry) (hne : peers ≠ []) :
    ∀ (k idx : Nat), firstCandidates peers ⟨.round_robin, idx⟩ k =
      (List.range k).map (fun j =>
        some (peers.getD ((idx + j) % peers.length) defaultPeerEntry)) := by
  have hn : 0 < peers.length := List.length_pos.mpr hne
  intro k
  induction k with
  | zero => intro idx; rfl
  | succ k ih =>
    intro idx
    simp only [firstCandidates]
    rw [selectPeers_rr_eq idx peers none hne]
    simp only
    rw [head?_map_range peers.length hn, ih ((idx + 1) % peers.length)]
    rw [List.range_succ_eq_map, List.map_cons, List.map_map]
    congr 1
    apply List.map_congr_left
    intro j hj
    have h2 : idx + 1 + j = idx + (j + 1) := by omega
    simp [Function.comp, Nat.mod_add_mod, h2]

theorem firstCandidates_rr_nodup (idx : Nat) (peers : List PeerEntry)
    (hne : peers ≠ []) (hnodup : peers.Nodup) :
    (firstCandidates peers ⟨.round_robin, idx⟩ peers.length).Nodup := by
  have hn : 0 < peers.length := List.length_pos.mpr hne
  rw [firstCandidates_rr peers hne peers.length idx]
  refine List.Nodup.map_on ?_ (List.nodup_range _)
  intro j1 hj1 j2 hj2 heq
  simp only [List.mem_range] at hj1 hj2
  injection heq with heq2
  have hi1 : (idx + j1) % peers.length < peers.length := Nat.mod_lt _ hn
  have hi2 : (idx + j2) % peers.length < peers.length := Nat.mod_lt _ hn
  rw [List.getD_eq_getElem peers defaultPeerEntry hi1,
    List.getD_eq_getElem peers defaultPeerEntry hi2] at heq2
  have hfin := (List.Nodup.get_inj_iff hnodup).mp heq2
  have hidx : (idx + j1) % peers.length = (idx + j2) % peers.length :=
    congrArg Fin.val hfin
  have hmeq : Nat.ModEq peers.length (idx + j1) (idx + j2) := hidx
  have hj : Nat.ModEq peers.length j1 j2 := Nat.ModEq.add_left_cancel' idx hmeq
  have : j1 % peers.length = j2 % peers.length := hj
  rwa [Nat.mod_eq_of_lt hj1, Nat.mod_eq_of_lt hj2] at this

/-- C2 counterexample: with strategy `capability_match`, no constraints,
round-robin index 1 and the two active peers `[entryA, entryC]`, the
code returns the peers unrotated with the index unchanged, not — as the
claim asserts for capability_match without an allowlist — the rotation
starting at index 1 with the index advanced modulo 2. -/
theorem selectPeers_capability_match_no_rotation :
    selectPeers ⟨.capability_match, 1⟩ [entryA, entryC] none =
      ([entryA, entryC], ⟨.capability_match, 1⟩) ∧
    selectPeers ⟨.capability_match, 1⟩ [entryA, entryC] none ≠
      ((List.range 2).map (fun i =>
        [entryA, entryC].getD ((1 + i) % 2) defaultPeerEntry),
       ⟨.capability_match, (1 + 1) % 2⟩) := by
  constructor
  · rfl
  · decide

/-- C2 (amended): only under strategy `round_robin` does `selectPeers`
list all active peers rotated to start at the round-robin index and
advance that index by 1 modulo the candidate count (the rotation
surviving across calls, so N successive calls over N distinct active
peers observe N distinct first candidates); under `capability_match`
with no (or an empty) allowlist it returns the active peers in table
order and leaves the index unchanged. -/
theorem selectPeers_rotation_amended (st : DistState) (peers : List PeerEntry)
    (c : Option SwarmTaskConstraints) :
    (st.strategy = .round_robin → peers ≠ [] →
      selectPeers st peers c =
        ((List.range peers.length).map (fun i =>
          peers.getD ((st.roundRobinIndex + i) % peers.length) defaultPeerEntry),
         ⟨.round_robin, (st.roundRobinIndex + 1) % peers.length⟩)) ∧
    (st.strategy = .capability_match →
      (c = none ∨ ∃ cc, c = some cc ∧
        (cc.tool_allowlist = none ∨ cc.tool_allowlist = some [])) →
      selectPeers st peers c = (peers, st)) ∧
    (st.strategy = .round_robin → peers ≠ [] → peers.Nodup →
      (firstCandidates peers st peers.length).Nodup) := by
  obtain ⟨sts, idx⟩ := st
  refine ⟨?_, ?_, ?_⟩
  · intro hstrat hne
    simp only at hstrat
    subst hstrat
    exact selectPeers_rr_eq idx peers c hne
  · intro hstrat hc
    simp only at hstrat
    subst hstrat
    rcases hc with rfl | ⟨cc, rfl, hcc | hcc⟩
    · simp [selectPeers]
    · simp [selectPeers, hcc]
    · simp [selectPeers, hcc]
  · intro hstrat hne hnodup
    simp only at hstrat
    subst hstrat
    exact firstCandidates_rr_nodup idx peers hne hnodup

/-- Witness for the amended C2 at strategy `round_robin`, index 1 and
the two distinct active peers `[entryA, entryC]`. -/
theorem selectPeers_rotation_amended_witness :
    selectPeers ⟨.round_robin, 1⟩ [entryA, entryC] none =
      ((List.range 2).map (fun i =>
        [entryA, entryC].getD ((1 + i) % 2) defaultPeerEntry),
       ⟨.round_robin, (1 + 1) % 2⟩) ∧
    (firstCandidates [entryA, entryC] ⟨.round_robin, 1⟩ 2).Nodup :=
  ⟨(selectPeers_rotation_amended ⟨.round_robin, 1⟩ [entryA, entryC] none).1
      rfl (by decide),
   (selectPeers_rotation_amended ⟨.round_robin, 1⟩ [entryA, entryC] none).2.2
      rfl (by decide) (by decide)⟩

end Swarm
